import Mathlib

/-!
Shallow embedding of the farba software rasterizer (Rust) and verification of
its specification claims.

Modelling conventions:
* `u32` values are `Nat`s; the packing and channel-extraction code uses the
  source's bit operations (`&&&`, `|||`, `<<<`, `>>>`) with `% 256` for the
  final `as u8` truncation.
* `i32` coordinates are `Int` (the geometry here never approaches the i32
  range bounds, so two's-complement wrap-around is not modelled except in the
  `as usize` cast, where the negative-value wrap is what makes out-of-range
  indexing observable).
* `usize` casts of possibly-negative `i32`s are modelled by `usizeCast`
  (wrap modulo 2^64), matching Rust's sign-extending cast.
* `f32` values are modelled as `ℚ` (exact arithmetic; every concrete input
  used below is exactly representable in `f32` and the floating-point
  operations on them are exact).
* The pixel buffer is a total function `Nat → Nat` indexed like the flat
  `Vec<u32>`; `Vec` indexing panics are modelled with `Option` where the
  source can actually reach an out-of-range index (`set_pixel`), and the
  depth-buffer length-mismatch panic makes `triangle_with_depth_buffer`
  return `none`.
-/

namespace Farba

/-! ## Color layer (src/color.rs) -/

/-- Channel accessor `red` of `impl Color for u32`. -/
def U32.red (c : Nat) : Nat := ((c &&& 0x000000FF) >>> (8 * 0)) % 256

/-- Channel accessor `green` of `impl Color for u32`. -/
def U32.green (c : Nat) : Nat := ((c &&& 0x0000FF00) >>> (8 * 1)) % 256

/-- Channel accessor `blue` of `impl Color for u32`. -/
def U32.blue (c : Nat) : Nat := ((c &&& 0x00FF0000) >>> (8 * 2)) % 256

/-- Channel accessor `alpha` of `impl Color for u32`. -/
def U32.alpha (c : Nat) : Nat := ((c &&& 0xFF000000) >>> (8 * 3)) % 256

/-- The struct `RGBAColor` (fields are `u8`, so values < 256). -/
structure RGBAColor where
  red : Nat
  green : Nat
  blue : Nat
  alpha : Nat

/-- `From<&RGBAColor> for u32`: packs the four channels, byte 0 = red upward. -/
def RGBAColor.pack (c : RGBAColor) : Nat :=
  ((c.red &&& 0xFF) <<< (8 * 0))
    ||| ((c.green &&& 0xFF) <<< (8 * 1))
    ||| ((c.blue &&& 0xFF) <<< (8 * 2))
    ||| ((c.alpha &&& 0xFF) <<< (8 * 3))

/-! ## Vector layer (src/math.rs) -/

/-- `Vec3`, with the `f32` fields modelled as `ℚ`. -/
structure Vec3 where
  x : ℚ
  y : ℚ
  z : ℚ

/-- `Vec3::dot`. -/
def Vec3.dot (a b : Vec3) : ℚ := a.x * b.x + a.y * b.y + a.z * b.z

/-- `Vec3::cross`. -/
def Vec3.cross (a b : Vec3) : Vec3 :=
  ⟨a.y * b.z - a.z * b.y, a.z * b.x - a.x * b.z, a.x * b.y - a.y * b.x⟩

/-- `Vec3::magnitude_squared`, exactly as the source writes it:
`self.x * self.x + self.y + self.y * self.z * self.z`. -/
def Vec3.magnitude_squared (v : Vec3) : ℚ := v.x * v.x + v.y + v.y * v.z * v.z

/-- `impl Sub<Vec3> for Vec3`. -/
instance : Sub Vec3 := ⟨fun a b => ⟨a.x - b.x, a.y - b.y, a.z - b.z⟩⟩

/-! ## Bit-manipulation helper lemmas for the color round-trip -/

theorem and255_eq_mod (x : Nat) : x &&& 255 = x % 256 := by
  have h := Nat.and_pow_two_sub_one_eq_mod x 8
  norm_num at h
  exact h

theorem and255_of_lt (x : Nat) (h : x < 256) : x &&& 255 = x := by
  rw [and255_eq_mod, Nat.mod_eq_of_lt h]

theorem or_shiftRight (x y k : Nat) : (x ||| y) >>> k = (x >>> k) ||| (y >>> k) := by
  apply Nat.eq_of_testBit_eq
  intro j
  simp [Nat.testBit_shiftRight, Nat.testBit_or]

theorem shiftLeft_shiftRight_of_le (x k m : Nat) (h : k ≤ m) :
    (x <<< m) >>> k = x <<< (m - k) := by
  rw [Nat.shiftLeft_eq, Nat.shiftLeft_eq, Nat.shiftRight_eq_div_pow]
  have hm : (2 : Nat) ^ m = 2 ^ (m - k) * 2 ^ k := by
    rw [← pow_add]
    congr 1
    omega
  rw [hm, ← Nat.mul_assoc]
  exact Nat.mul_div_cancel _ (Nat.pos_pow_of_pos k (by norm_num))

theorem shiftRight_eq_zero (x k : Nat) (h : x < 2 ^ k) : x >>> k = 0 := by
  rw [Nat.shiftRight_eq_div_pow]
  exact Nat.div_eq_of_lt h

theorem shiftLeft_and_255 (x k : Nat) (h : 8 ≤ k) : (x <<< k) &&& 255 = 0 := by
  apply Nat.eq_of_testBit_eq
  intro j
  simp only [Nat.testBit_and, Nat.testBit_shiftLeft, Nat.zero_testBit]
  by_cases hj : j < 8
  · have : ¬ k ≤ j := by omega
    simp [this]
  · have h255 : (255 : Nat) < 2 ^ j := by
      calc (255 : Nat) < 2 ^ 8 := by norm_num
      _ ≤ 2 ^ j := Nat.pow_le_pow_right (by norm_num) (by omega)
    simp [Nat.testBit_lt_two_pow h255]

theorem mask_shift (N k : Nat) : (N &&& (255 <<< k)) >>> k = (N >>> k) &&& 255 := by
  apply Nat.eq_of_testBit_eq
  intro j
  simp only [Nat.testBit_shiftRight, Nat.testBit_and, Nat.testBit_shiftLeft]
  have h1 : k ≤ k + j := Nat.le_add_right k j
  simp [h1, Nat.add_sub_cancel_left]

theorem pack_or_form (r g b a : Nat) (hr : r < 256) (hg : g < 256) (hb : b < 256)
    (ha : a < 256) :
    RGBAColor.pack ⟨r, g, b, a⟩ = r ||| (g <<< 8) ||| (b <<< 16) ||| (a <<< 24) := by
  simp [RGBAColor.pack, and255_of_lt _ hr, and255_of_lt _ hg, and255_of_lt _ hb,
    and255_of_lt _ ha, Nat.shiftLeft_zero]

theorem byte_extract_0 (r g b a : Nat) (hr : r < 256) :
    ((r ||| (g <<< 8) ||| (b <<< 16) ||| (a <<< 24)) >>> 0) &&& 255 = r := by
  rw [Nat.shiftRight_zero, Nat.and_distrib_right, Nat.and_distrib_right,
    Nat.and_distrib_right, and255_of_lt _ hr,
    shiftLeft_and_255 g 8 (by norm_num), shiftLeft_and_255 b 16 (by norm_num),
    shiftLeft_and_255 a 24 (by norm_num)]
  simp

theorem byte_extract_8 (r g b a : Nat) (hr : r < 256) (hg : g < 256) :
    ((r ||| (g <<< 8) ||| (b <<< 16) ||| (a <<< 24)) >>> 8) &&& 255 = g := by
  rw [or_shiftRight, or_shiftRight, or_shiftRight,
    shiftRight_eq_zero r 8 (by norm_num at hr ⊢; omega),
    shiftLeft_shiftRight_of_le g 8 8 le_rfl,
    shiftLeft_shiftRight_of_le b 8 16 (by norm_num),
    shiftLeft_shiftRight_of_le a 8 24 (by norm_num)]
  norm_num [Nat.shiftLeft_zero, Nat.and_distrib_right, and255_of_lt _ hg,
    shiftLeft_and_255 b 8 le_rfl, shiftLeft_and_255 a 16 (by norm_num)]

theorem byte_extract_16 (r g b a : Nat) (hr : r < 256) (hg : g < 256) (hb : b < 256) :
    ((r ||| (g <<< 8) ||| (b <<< 16) ||| (a <<< 24)) >>> 16) &&& 255 = b := by
  rw [or_shiftRight, or_shiftRight, or_shiftRight,
    shiftRight_eq_zero r 16 (by norm_num at hr ⊢; omega)]
  have hg16 : (g <<< 8) >>> 16 = 0 := by
    apply shiftRight_eq_zero
    rw [Nat.shiftLeft_eq]
    calc g * 2 ^ 8 < 256 * 2 ^ 8 := by
          exact (Nat.mul_lt_mul_right (by norm_num)).mpr hg
    _ ≤ 2 ^ 16 := by norm_num
  rw [hg16, shiftLeft_shiftRight_of_le b 16 16 le_rfl,
    shiftLeft_shiftRight_of_le a 16 24 (by norm_num)]
  norm_num [Nat.shiftLeft_zero, Nat.and_distrib_right, and255_of_lt _ hb,
    shiftLeft_and_255 a 8 le_rfl]

theorem byte_extract_24 (r g b a : Nat) (hr : r < 256) (hg : g < 256) (hb : b < 256)
    (ha : a < 256) :
    ((r ||| (g <<< 8) ||| (b <<< 16) ||| (a <<< 24)) >>> 24) &&& 255 = a := by
  rw [or_shiftRight, or_shiftRight, or_shiftRight,
    shiftRight_eq_zero r 24 (by norm_num at hr ⊢; omega)]
  have hg24 : (g <<< 8) >>> 24 = 0 := by
    apply shiftRight_eq_zero
    rw [Nat.shiftLeft_eq]
    calc g * 2 ^ 8 < 256 * 2 ^ 8 := (Nat.mul_lt_mul_right (by norm_num)).mpr hg
    _ ≤ 2 ^ 24 := by norm_num
  have hb24 : (b <<< 16) >>> 24 = 0 := by
    apply shiftRight_eq_zero
    rw [Nat.shiftLeft_eq]
    calc b * 2 ^ 16 < 256 * 2 ^ 16 := (Nat.mul_lt_mul_right (by norm_num)).mpr hb
    _ ≤ 2 ^ 24 := by norm_num
  rw [hg24, hb24, shiftLeft_shiftRight_of_le a 24 24 le_rfl]
  norm_num [Nat.shiftLeft_zero, and255_of_lt _ ha]

/-- C8: for all r, g, b, a in [0, 255], packing the four channels into a 32-bit
word (byte 0 = red, byte 1 = green, byte 2 = blue, byte 3 = alpha, from
least-significant byte upward) and extracting each channel with the u32
accessors red/green/blue/alpha yields back exactly the original four values. -/
theorem C8_pack_unpack_roundtrip (r g b a : Nat) (hr : r ≤ 255) (hg : g ≤ 255)
    (hb : b ≤ 255) (ha : a ≤ 255) :
    U32.red (RGBAColor.pack ⟨r, g, b, a⟩) = r ∧
    U32.green (RGBAColor.pack ⟨r, g, b, a⟩) = g ∧
    U32.blue (RGBAColor.pack ⟨r, g, b, a⟩) = b ∧
    U32.alpha (RGBAColor.pack ⟨r, g, b, a⟩) = a := by
  have hr' : r < 256 := by omega
  have hg' : g < 256 := by omega
  have hb' : b < 256 := by omega
  have ha' : a < 256 := by omega
  rw [U32.red, U32.green, U32.blue, U32.alpha, pack_or_form r g b a hr' hg' hb' ha']
  have m0 : (0x000000FF : Nat) = 255 <<< 0 := by norm_num
  have m8 : (0x0000FF00 : Nat) = 255 <<< 8 := by norm_num [Nat.shiftLeft_eq]
  have m16 : (0x00FF0000 : Nat) = 255 <<< 16 := by norm_num [Nat.shiftLeft_eq]
  have m24 : (0xFF000000 : Nat) = 255 <<< 24 := by norm_num [Nat.shiftLeft_eq]
  rw [m0, m8, m16, m24, show 8 * 0 = 0 from rfl, show 8 * 1 = 8 from rfl,
    show 8 * 2 = 16 from rfl, show 8 * 3 = 24 from rfl,
    mask_shift, mask_shift, mask_shift, mask_shift,
    byte_extract_0 r g b a hr', byte_extract_8 r g b a hr' hg',
    byte_extract_16 r g b a hr' hg' hb', byte_extract_24 r g b a hr' hg' hb' ha']
  exact ⟨Nat.mod_eq_of_lt hr', Nat.mod_eq_of_lt hg', Nat.mod_eq_of_lt hb',
    Nat.mod_eq_of_lt ha'⟩

/-- C8 witness: the round-trip theorem applied at the concrete channel values
(1, 2, 3, 4). -/
theorem C8_pack_unpack_roundtrip_witness :
    (1 ≤ 255 ∧ 2 ≤ 255 ∧ 3 ≤ 255 ∧ 4 ≤ 255) ∧
    (U32.red (RGBAColor.pack ⟨1, 2, 3, 4⟩) = 1 ∧
      U32.green (RGBAColor.pack ⟨1, 2, 3, 4⟩) = 2 ∧
      U32.blue (RGBAColor.pack ⟨1, 2, 3, 4⟩) = 3 ∧
      U32.alpha (RGBAColor.pack ⟨1, 2, 3, 4⟩) = 4) :=
  ⟨by decide, C8_pack_unpack_roundtrip 1 2 3 4 (by decide) (by decide) (by decide)
    (by decide)⟩

/-- C7: the claim states magnitude_squared v = dot v v for every Vec3, making
magnitude the Euclidean norm. The source instead computes
x*x + y + y*z*z (the y term is not squared and the operators are mis-grouped).
At v = (0, 2, 0) — all values exactly representable in f32, all operations
exact — magnitude_squared yields 2 while dot v v yields 4. -/
theorem C7_magnitude_squared_bug :
    Vec3.magnitude_squared ⟨0, 2, 0⟩ = 2 ∧
    Vec3.dot ⟨0, 2, 0⟩ ⟨0, 2, 0⟩ = 4 ∧
    Vec3.magnitude_squared ⟨0, 2, 0⟩ ≠ Vec3.dot ⟨0, 2, 0⟩ ⟨0, 2, 0⟩ := by
  refine ⟨?_, ?_, ?_⟩ <;> norm_num [Vec3.magnitude_squared, Vec3.dot]

/-! ## Clipper (src/normal.rs) -/

/-- The struct `NormalizedRect`. -/
structure NormalizedRect where
  x1 : Int
  y1 : Int
  x2 : Int
  y2 : Int
  orig_x1 : Int
  orig_y1 : Int
  orig_x2 : Int
  orig_y2 : Int

/-- `normalize_rect`: converts a signed-extent rectangle request into an
inclusive, canvas-clamped box, or `none` when empty or fully off canvas. -/
def normalize_rect (x y width height cw ch : Int) :
    Option NormalizedRect :=
  if width = 0 ∨ height = 0 then none
  else
    let ox1 := x
    let ox2 := ox1 + width.sign * (|width| - 1)
    let px := if ox1 > ox2 then (ox2, ox1) else (ox1, ox2)
    let oy1 := y
    let oy2 := oy1 + height.sign * (|height| - 1)
    let py := if oy1 > oy2 then (oy2, oy1) else (oy1, oy2)
    if px.1 ≥ cw ∨ px.2 < 0 ∨ py.1 ≥ ch ∨ py.2 < 0 then none
    else
      let nx1 := if px.1 < 0 then 0 else px.1
      let nx2 := if px.2 ≥ cw then cw - 1 else px.2
      let ny1 := if py.1 < 0 then 0 else py.1
      let ny2 := if py.2 ≥ ch then ch - 1 else py.2
      some ⟨nx1, ny1, nx2, ny2, px.1, py.1, px.2, py.2⟩

/-- The struct `NormalizedTriangle`. -/
structure NormalizedTriangle where
  left_x : Int
  right_x : Int
  top_y : Int
  bottom_y : Int

/-- `normalize_triangle`: clamped bounding box of the three vertices, or
`none` when fully off canvas.  The `as usize` comparisons in the source are
performed on values already known nonnegative at that point, so they are
ordinary integer comparisons here. -/
def normalize_triangle (width height : Nat) (x1 y1 x2 y2 x3 y3 : Int) :
    Option NormalizedTriangle :=
  let lx0 := x1
  let lx1 := if lx0 > x2 then x2 else lx0
  let lx := if lx1 > x3 then x3 else lx1
  let rx0 := x1
  let rx1 := if rx0 < x2 then x2 else rx0
  let rx := if rx1 < x3 then x3 else rx1
  let lx' := if lx < 0 then 0 else lx
  if lx' ≥ (width : Int) then none
  else if rx < 0 then none
  else
    let rx' := if rx ≥ (width : Int) then (width : Int) - 1 else rx
    let ty0 := y1
    let ty1 := if ty0 > y2 then y2 else ty0
    let ty := if ty1 > y3 then y3 else ty1
    let byy0 := y1
    let byy1 := if byy0 < y2 then y2 else byy0
    let byy := if byy1 < y3 then y3 else byy1
    let ty' := if ty < 0 then 0 else ty
    if ty' ≥ (height : Int) then none
    else if byy < 0 then none
    else
      let byy' := if byy ≥ (height : Int) then (height : Int) - 1 else byy
      some ⟨lx', rx', ty', byy'⟩

/-! ## Canvas (src/canvas.rs) -/

/-- The `Canvas` struct; the `Vec<u32>` pixel buffer is modelled as a total
function on flat indices, with the length `width * height` implicit. -/
structure Canvas where
  pixels : Nat → Nat
  width : Nat
  height : Nat

/-- `Canvas::new`: buffer of `width * height` zeroes. -/
def Canvas.new (width height : Nat) : Canvas := ⟨fun _ => 0, width, height⟩

/-- Rust's `as usize` cast of an `i32` value: sign extension, so a negative
value wraps to `v + 2^64` (every `i32` is within the 64-bit range, so this
branch form is exactly the wrap modulo 2^64). -/
def usizeCast (v : Int) : Nat := if v < 0 then (v + 2 ^ 64).toNat else v.toNat

/-- `Canvas::in_bounds`, exactly as the source writes it.  Note that the
body tests `x < 0 || x >= width || y < 0 || y >= height`, which is true
precisely when (x, y) is OUTSIDE the canvas. -/
def Canvas.in_bounds (c : Canvas) (x y : Int) : Bool :=
  x < 0 || x ≥ (c.width : Int) || y < 0 || y ≥ (c.height : Int)

/-- `Canvas::get_index`: `self.width * y as usize + x as usize`. -/
def Canvas.get_index (c : Canvas) (x y : Int) : Nat :=
  c.width * usizeCast y + usizeCast x

/-- `Canvas::set_pixel`: guards the write with `in_bounds` (the inverted
test above); the inner `Vec` indexing panics (`none`) when the computed flat
index falls outside the buffer. -/
def Canvas.set_pixel (c : Canvas) (x y : Int) (color : Nat) : Option Canvas :=
  if c.in_bounds x y then
    if c.get_index x y < c.width * c.height then
      some { c with pixels := Function.update c.pixels (c.get_index x y) color }
    else none
  else some c

/-- The inclusive integer range `a..=b` as a list. -/
def intRange (a b : Int) : List Int :=
  (List.range (b + 1 - a).toNat).map (fun (i : Nat) => a + (i : Int))

/-- The nested `for x in xs { for y in ys { .. } }` loop as a fold. -/
def nestedFold {σ : Type} (step : σ → Int × Int → σ) (xs ys : List Int)
    (init : σ) : σ :=
  xs.foldl (fun s px => ys.foldl (fun s py => step s (px, py)) s) init

/-- One body execution of a guarded pixel-writing loop: when the predicate
holds at the cell, store the color at that cell's flat index. -/
def writeStep (idx : Int → Int → Nat) (pred : Int → Int → Bool) (color : Nat)
    (f : Nat → Nat) (p : Int × Int) : Nat → Nat :=
  if pred p.1 p.2 then Function.update f (idx p.1 p.2) color else f

/-- `Canvas::rect`: clip via `normalize_rect`, then fill the whole clipped
box (the loop guard is constantly true). -/
def Canvas.rect (c : Canvas) (x y width height : Int) (color : Nat) : Canvas :=
  match normalize_rect x y width height (c.width : Int) (c.height : Int) with
  | none => c
  | some nr =>
    let px := nestedFold (writeStep c.get_index (fun _ _ => true) color)
      (intRange nr.x1 nr.x2) (intRange nr.y1 nr.y2) c.pixels
    { c with pixels := px }

/-- `Canvas::circle`: clip the circle's bounding box via `normalize_rect`,
then write every box pixel whose center satisfies the strict disc test. -/
def Canvas.circle (c : Canvas) (center_x center_y radius : Int) (color : Nat) :
    Canvas :=
  match normalize_rect (center_x - radius) (center_y - radius) (radius * 2)
      (radius * 2) (c.width : Int) (c.height : Int) with
  | none => c
  | some nr =>
    let px := nestedFold (writeStep c.get_index
      (fun x y => decide ((center_x - x) * (center_x - x) +
        (center_y - y) * (center_y - y) < radius * radius)) color)
      (intRange nr.x1 nr.x2) (intRange nr.y1 nr.y2) c.pixels
    { c with pixels := px }

/-- The closure `point_in_bounds` of `Canvas::triangle`: the three edge
values, each tested with `signum() >= 0`. -/
def pointInTriangle (x1 y1 x2 y2 x3 y3 x y : Int) : Bool :=
  let z1 := (x2 - x1) * (y - y1) - (y2 - y1) * (x - x1)
  let z2 := (x3 - x2) * (y - y2) - (y3 - y2) * (x - x2)
  let z3 := (x1 - x3) * (y - y3) - (y1 - y3) * (x - x3)
  decide (0 ≤ z1.sign) && decide (0 ≤ z2.sign) && decide (0 ≤ z3.sign)

/-- `Canvas::triangle`: clip via `normalize_triangle`, then write every box
pixel passing the three-edge sign test. -/
def Canvas.triangle (c : Canvas) (x1 y1 x2 y2 x3 y3 : Int) (color : Nat) :
    Canvas :=
  match normalize_triangle c.width c.height x1 y1 x2 y2 x3 y3 with
  | none => c
  | some nt =>
    let px := nestedFold (writeStep c.get_index
      (pointInTriangle x1 y1 x2 y2 x3 y3) color)
      (intRange nt.left_x nt.right_x) (intRange nt.top_y nt.bottom_y) c.pixels
    { c with pixels := px }

/-- Rust's `f32 as i32` cast: truncation toward zero (on a rational in
lowest terms this is the truncating division of numerator by denominator),
saturating at the i32 range bounds. -/
def ratToI32 (q : ℚ) : Int :=
  max (-(2 ^ 31)) (min (2 ^ 31 - 1) (q.num.tdiv (q.den : Int)))

/-- A `Vec<f32>` depth buffer: its length together with its contents (the
contents as a total function on indices, like the pixel buffer). -/
structure DepthBuffer where
  len : Nat
  vals : Nat → ℚ

/-- One body execution of the depth-tested loop of
`triangle_with_depth_buffer`: when the cell passes the edge test and its
interpolated depth is strictly nearer than the stored one, both the pixel
and the stored depth at the cell's flat index are updated. -/
def depthStep (idx : Int → Int → Nat) (pib : Int → Int → Bool)
    (z : Int → Int → ℚ) (color : Nat) (st : (Nat → Nat) × (Nat → ℚ))
    (p : Int × Int) : (Nat → Nat) × (Nat → ℚ) :=
  if pib p.1 p.2 = true ∧ z p.1 p.2 < st.2 (idx p.1 p.2) then
    (Function.update st.1 (idx p.1 p.2) color,
      Function.update st.2 (idx p.1 p.2) (z p.1 p.2))
  else st

/-- The interpolated plane depth of `triangle_with_depth_buffer`:
`z = (1.0 / t) * (k - r * x - s * y)` with `(r, s, t)` the normal of the
plane through the three vertices and `k` the plane constant. -/
def planeDepth (v1 v2 v3 : Vec3) (x y : Int) : ℚ :=
  let plane_v1 := v1 - v2
  let plane_v2 := v1 - v3
  let plane_normal := Vec3.cross plane_v1 plane_v2
  let k := Vec3.dot v1 plane_normal
  (1 / plane_normal.z) * (k - plane_normal.x * (x : ℚ) - plane_normal.y * (y : ℚ))

/-- `Canvas::triangle_with_depth_buffer`.  The source culls the triangle
via `normalize_triangle` BEFORE checking the depth-buffer length; a length
mismatch reached after a successful clip panics (`none`). -/
def Canvas.triangle_with_depth_buffer (c : Canvas) (v1 v2 v3 : Vec3)
    (color : Nat) (db : DepthBuffer) : Option (Canvas × DepthBuffer) :=
  let x1 := ratToI32 v1.x
  let y1 := ratToI32 v1.y
  let x2 := ratToI32 v2.x
  let y2 := ratToI32 v2.y
  let x3 := ratToI32 v3.x
  let y3 := ratToI32 v3.y
  match normalize_triangle c.width c.height x1 y1 x2 y2 x3 y3 with
  | none => some (c, db)
  | some nt =>
    if db.len ≠ c.width * c.height then none
    else
      let st := nestedFold (depthStep c.get_index
        (pointInTriangle x1 y1 x2 y2 x3 y3) (planeDepth v1 v2 v3) color)
        (intRange nt.left_x nt.right_x) (intRange nt.top_y nt.bottom_y)
        (c.pixels, db.vals)
      some ({ c with pixels := st.1 }, { db with vals := st.2 })

/-- C1: the claim states `set_pixel(x, y, color)` writes when
`0 <= x < width` and `0 <= y < height` and silently no-ops otherwise — which
is also what the source's own doc comment promises.  The code inverts the
test: `in_bounds` returns true exactly when (x, y) is OUTSIDE the canvas,
so an in-bounds call changes nothing, and an out-of-bounds call either
panics (negative coordinate) or writes a wrong pixel (x = width, y = 0
lands on pixel (0, 1)).  Evaluated here on a 2-by-2 canvas. -/
theorem C1_set_pixel_inverted_bounds_check :
    Canvas.set_pixel (Canvas.new 2 2) 0 0 7 = some (Canvas.new 2 2) ∧
    Canvas.set_pixel (Canvas.new 2 2) (-1) 0 7 = none ∧
    (Canvas.set_pixel (Canvas.new 2 2) 2 0 7).map (fun c => c.pixels 2) =
      some 7 := by
  refine ⟨?_, ?_, ?_⟩
  · rfl
  · simp only [Canvas.set_pixel, Canvas.in_bounds, Canvas.new, Canvas.get_index,
      usizeCast]
    norm_num
  · simp only [Canvas.set_pixel, Canvas.in_bounds, Canvas.new, Canvas.get_index,
      usizeCast]
    norm_num [Function.update]
    rfl

/-! ## Iteration-range and loop lemmas -/

theorem mem_intRange {x a b : Int} : x ∈ intRange a b ↔ a ≤ x ∧ x ≤ b := by
  unfold intRange
  rw [List.mem_map]
  constructor
  · rintro ⟨i, hi, rfl⟩
    rw [List.mem_range] at hi
    omega
  · intro h
    exact ⟨(x - a).toNat, List.mem_range.mpr (by omega), by omega⟩

/-- The list of cells visited by the nested loop, outer x then inner y. -/
def cellProd (xs ys : List Int) : List (Int × Int) :=
  xs.flatMap (fun px => ys.map (fun py => (px, py)))

theorem mem_cellProd {p : Int × Int} {xs ys : List Int} :
    p ∈ cellProd xs ys ↔ p.1 ∈ xs ∧ p.2 ∈ ys := by
  cases p with
  | mk a b =>
    simp only [cellProd, List.mem_flatMap, List.mem_map, Prod.mk.injEq]
    constructor
    · rintro ⟨px, hpx, py, hpy, rfl, rfl⟩
      exact ⟨hpx, hpy⟩
    · rintro ⟨ha, hb⟩
      exact ⟨a, ha, b, hb, rfl, rfl⟩

theorem nestedFold_eq_foldl {σ : Type} (step : σ → Int × Int → σ)
    (xs ys : List Int) (init : σ) :
    nestedFold step xs ys init = (cellProd xs ys).foldl step init := by
  simp only [nestedFold, cellProd]
  induction xs generalizing init with
  | nil => rfl
  | cons px xs ih =>
    rw [List.flatMap_cons, List.foldl_append, List.foldl_map, List.foldl_cons]
    exact ih _

theorem foldl_writeStep_not_written (idx : Int → Int → Nat)
    (pred : Int → Int → Bool) (color : Nat) (cells : List (Int × Int))
    (f : Nat → Nat) (i : Nat)
    (h : ∀ p ∈ cells, pred p.1 p.2 = true → idx p.1 p.2 ≠ i) :
    (cells.foldl (writeStep idx pred color) f) i = f i := by
  induction cells generalizing f with
  | nil => rfl
  | cons p rest ih =>
    rw [List.foldl_cons, ih _ (fun q hq => h q (List.mem_cons_of_mem p hq))]
    unfold writeStep
    by_cases hp : pred p.1 p.2 = true
    · rw [if_pos hp,
        Function.update_noteq (Ne.symm (h p (List.mem_cons_self p rest) hp))]
    · rw [if_neg hp]

theorem foldl_writeStep_written (idx : Int → Int → Nat)
    (pred : Int → Int → Bool) (color : Nat) (cells : List (Int × Int))
    (f : Nat → Nat) (i : Nat)
    (h : ∃ p ∈ cells, pred p.1 p.2 = true ∧ idx p.1 p.2 = i) :
    (cells.foldl (writeStep idx pred color) f) i = color := by
  induction cells generalizing f with
  | nil => simp at h
  | cons p rest ih =>
    rw [List.foldl_cons]
    by_cases hrest : ∃ q ∈ rest, pred q.1 q.2 = true ∧ idx q.1 q.2 = i
    · exact ih _ hrest
    · obtain ⟨q, hq, hpred, hidx⟩ := h
      rcases List.mem_cons.mp hq with rfl | hqr
      · rw [foldl_writeStep_not_written idx pred color rest _ i
          (by
            intro p' hp' hpred'
            intro hidx'
            exact hrest ⟨p', hp', hpred', hidx'⟩)]
        unfold writeStep
        rw [if_pos hpred, hidx, Function.update_same]
      · exact absurd ⟨q, hqr, hpred, hidx⟩ hrest

/-! ## Clipper inversion lemmas -/

theorem sortFst (a b : Int) : (if a > b then (b, a) else (a, b)).1 = min a b := by
  split <;> omega

theorem sortSnd (a b : Int) : (if a > b then (b, a) else (a, b)).2 = max a b := by
  split <;> omega

theorem ifMin (a b : Int) : (if a > b then b else a) = min a b := by
  split <;> omega

theorem ifMax (a b : Int) : (if a < b then b else a) = max a b := by
  split <;> omega

theorem clampLow (v : Int) : (if v < 0 then 0 else v) = max v 0 := by
  split <;> omega

theorem clampHigh (v c : Int) : (if v ≥ c then c - 1 else v) = min v (c - 1) := by
  split <;> omega

theorem normalize_rect_eq_some {x y w h cw ch : Int} {nr : NormalizedRect} :
    normalize_rect x y w h cw ch = some nr ↔
      w ≠ 0 ∧ h ≠ 0 ∧
      min x (x + w.sign * (|w| - 1)) < cw ∧
      0 ≤ max x (x + w.sign * (|w| - 1)) ∧
      min y (y + h.sign * (|h| - 1)) < ch ∧
      0 ≤ max y (y + h.sign * (|h| - 1)) ∧
      nr = ⟨max (min x (x + w.sign * (|w| - 1))) 0,
            max (min y (y + h.sign * (|h| - 1))) 0,
            min (max x (x + w.sign * (|w| - 1))) (cw - 1),
            min (max y (y + h.sign * (|h| - 1))) (ch - 1),
            min x (x + w.sign * (|w| - 1)),
            min y (y + h.sign * (|h| - 1)),
            max x (x + w.sign * (|w| - 1)),
            max y (y + h.sign * (|h| - 1))⟩ := by
  obtain ⟨nx1, ny1, nx2, ny2, ox1, oy1, ox2, oy2⟩ := nr
  simp only [normalize_rect, sortFst, sortSnd, clampLow, clampHigh]
  generalize x + w.sign * (|w| - 1) = dx
  generalize y + h.sign * (|h| - 1) = dy
  split_ifs with h0 hcull <;>
    simp only [Option.some.injEq, NormalizedRect.mk.injEq,
      reduceCtorEq, false_iff, iff_false] <;>
    omega

theorem normalize_triangle_eq_some {w h : Nat} {x1 y1 x2 y2 x3 y3 : Int}
    {nt : NormalizedTriangle} :
    normalize_triangle w h x1 y1 x2 y2 x3 y3 = some nt ↔
      max (min (min x1 x2) x3) 0 < (w : Int) ∧ 0 ≤ max (max x1 x2) x3 ∧
      max (min (min y1 y2) y3) 0 < (h : Int) ∧ 0 ≤ max (max y1 y2) y3 ∧
      nt = ⟨max (min (min x1 x2) x3) 0,
            min (max (max x1 x2) x3) ((w : Int) - 1),
            max (min (min y1 y2) y3) 0,
            min (max (max y1 y2) y3) ((h : Int) - 1)⟩ := by
  obtain ⟨lx, rx, ty, byy⟩ := nt
  simp only [normalize_triangle, ifMin, ifMax, clampLow, clampHigh]
  split_ifs <;>
    simp only [Option.some.injEq, NormalizedTriangle.mk.injEq,
      reduceCtorEq, false_iff, iff_false] <;>
    omega

theorem normalize_triangle_bounds {w h : Nat} {x1 y1 x2 y2 x3 y3 : Int}
    {nt : NormalizedTriangle}
    (hs : normalize_triangle w h x1 y1 x2 y2 x3 y3 = some nt) :
    0 ≤ nt.left_x ∧ nt.right_x ≤ (w : Int) - 1 ∧
    0 ≤ nt.top_y ∧ nt.bottom_y ≤ (h : Int) - 1 := by
  rw [normalize_triangle_eq_some] at hs
  obtain ⟨h1, h2, h3, h4, rfl⟩ := hs
  refine ⟨?_, ?_, ?_, ?_⟩ <;> simp

theorem normalize_rect_bounds {x y w h cw ch : Int} {nr : NormalizedRect}
    (hs : normalize_rect x y w h cw ch = some nr) :
    0 ≤ nr.x1 ∧ nr.x2 ≤ cw - 1 ∧ 0 ≤ nr.y1 ∧ nr.y2 ≤ ch - 1 := by
  rw [normalize_rect_eq_some] at hs
  obtain ⟨_, _, h1, h2, h3, h4, rfl⟩ := hs
  refine ⟨?_, ?_, ?_, ?_⟩ <;> simp

/-! ## Characterization of the guarded pixel-writing loops -/

theorem nestedWrite_written {idx : Int → Int → Nat} {pred : Int → Int → Bool}
    {color : Nat} {xs ys : List Int} {f : Nat → Nat} {i : Nat}
    (h : ∃ px ∈ xs, ∃ py ∈ ys, pred px py = true ∧ idx px py = i) :
    nestedFold (writeStep idx pred color) xs ys f i = color := by
  rw [nestedFold_eq_foldl]
  apply foldl_writeStep_written
  obtain ⟨px, hpx, py, hpy, hpred, hidx⟩ := h
  exact ⟨(px, py), mem_cellProd.mpr ⟨hpx, hpy⟩, hpred, hidx⟩

theorem nestedWrite_not_written {idx : Int → Int → Nat} {pred : Int → Int → Bool}
    {color : Nat} {xs ys : List Int} {f : Nat → Nat} {i : Nat}
    (h : ∀ px ∈ xs, ∀ py ∈ ys, pred px py = true → idx px py ≠ i) :
    nestedFold (writeStep idx pred color) xs ys f i = f i := by
  rw [nestedFold_eq_foldl]
  apply foldl_writeStep_not_written
  intro p hp
  have := mem_cellProd.mp hp
  exact h p.1 this.1 p.2 this.2

/-! ## Flat-index injectivity on canvas coordinates -/

theorem flat_index_inj (w a b a' b' : Nat) (hw : 0 < w) (hb : b < w)
    (hb' : b' < w) (h : w * a + b = w * a' + b') : a = a' ∧ b = b' := by
  have ha : a = a' := by
    have h1 := congrArg (· / w) h
    simpa [Nat.mul_add_div hw, Nat.div_eq_of_lt hb, Nat.div_eq_of_lt hb'] using h1
  subst ha
  omega

theorem usizeCast_of_nonneg {v : Int} (h : 0 ≤ v) : usizeCast v = v.toNat := by
  unfold usizeCast
  rw [if_neg (not_lt.mpr h)]

theorem get_index_inj (c : Canvas) {px py qx qy : Int}
    (hpx0 : 0 ≤ px) (hpxw : px < (c.width : Int)) (hpy0 : 0 ≤ py)
    (hqx0 : 0 ≤ qx) (hqxw : qx < (c.width : Int)) (hqy0 : 0 ≤ qy)
    (h : c.get_index px py = c.get_index qx qy) : px = qx ∧ py = qy := by
  unfold Canvas.get_index at h
  rw [usizeCast_of_nonneg hpx0, usizeCast_of_nonneg hpy0,
    usizeCast_of_nonneg hqx0, usizeCast_of_nonneg hqy0] at h
  have hw : 0 < c.width := by omega
  have := flat_index_inj c.width py.toNat px.toNat qy.toNat qx.toNat hw
    (by omega) (by omega) h
  omega

/-- C4: for every `normalize_rect` call on a positive canvas, the result is
either no result, or a box contained in the canvas with ordered corners,
whose retained original corner pair is the ordered pair of x and the
mirrored corner x + sign(w)·(|w|−1) (and likewise for y). -/
theorem C4_normalize_rect_contract (x y w h cw ch : Int) (hcw : 0 < cw)
    (hch : 0 < ch) :
    normalize_rect x y w h cw ch = none ∨
    ∃ nr, normalize_rect x y w h cw ch = some nr ∧
      0 ≤ nr.x1 ∧ nr.x1 ≤ nr.x2 ∧ nr.x2 < cw ∧
      0 ≤ nr.y1 ∧ nr.y1 ≤ nr.y2 ∧ nr.y2 < ch ∧
      nr.orig_x1 = min x (x + w.sign * (|w| - 1)) ∧
      nr.orig_x2 = max x (x + w.sign * (|w| - 1)) ∧
      nr.orig_y1 = min y (y + h.sign * (|h| - 1)) ∧
      nr.orig_y2 = max y (y + h.sign * (|h| - 1)) := by
  cases hn : normalize_rect x y w h cw ch with
  | none => exact Or.inl rfl
  | some nr =>
    right
    refine ⟨nr, rfl, ?_⟩
    rw [normalize_rect_eq_some] at hn
    obtain ⟨hw0, hh0, h1, h2, h3, h4, rfl⟩ := hn
    simp only
    generalize x + w.sign * (|w| - 1) = dx at *
    generalize y + h.sign * (|h| - 1) = dy at *
    refine ⟨by omega, by omega, by omega, by omega, by omega, by omega,
      by trivial, by trivial, by trivial, by trivial⟩

/-- C4 witness: the contract applied to the concrete call
normalize_rect(-10, -10, 30, 40) on a 20-by-25 canvas. -/
theorem C4_normalize_rect_contract_witness :
    (0 : Int) < 20 ∧ (0 : Int) < 25 ∧
    (normalize_rect (-10) (-10) 30 40 20 25 = none ∨
      ∃ nr, normalize_rect (-10) (-10) 30 40 20 25 = some nr ∧
        0 ≤ nr.x1 ∧ nr.x1 ≤ nr.x2 ∧ nr.x2 < 20 ∧
        0 ≤ nr.y1 ∧ nr.y1 ≤ nr.y2 ∧ nr.y2 < 25 ∧
        nr.orig_x1 = min (-10) (-10 + (30 : Int).sign * (|(30 : Int)| - 1)) ∧
        nr.orig_x2 = max (-10) (-10 + (30 : Int).sign * (|(30 : Int)| - 1)) ∧
        nr.orig_y1 = min (-10) (-10 + (40 : Int).sign * (|(40 : Int)| - 1)) ∧
        nr.orig_y2 = max (-10) (-10 + (40 : Int).sign * (|(40 : Int)| - 1))) :=
  ⟨by norm_num, by norm_num,
    C4_normalize_rect_contract (-10) (-10) 30 40 20 25 (by norm_num) (by norm_num)⟩

/-! ## C2: triangle rasterization characterization -/

/-- The claim's drawing condition for `Canvas::triangle`: the pixel lies in
the clipped bounding box produced by `normalize_triangle`, and the three
edge functions over the directed edges (v1,v2), (v2,v3), (v3,v1) are all
nonnegative at the pixel. -/
def triangleHit (w h : Nat) (x1 y1 x2 y2 x3 y3 x y : Int) : Prop :=
  (∃ nt, normalize_triangle w h x1 y1 x2 y2 x3 y3 = some nt ∧
    nt.left_x ≤ x ∧ x ≤ nt.right_x ∧ nt.top_y ≤ y ∧ y ≤ nt.bottom_y) ∧
  0 ≤ (x2 - x1) * (y - y1) - (y2 - y1) * (x - x1) ∧
  0 ≤ (x3 - x2) * (y - y2) - (y3 - y2) * (x - x2) ∧
  0 ≤ (x1 - x3) * (y - y3) - (y1 - y3) * (x - x3)

theorem pointInTriangle_iff (x1 y1 x2 y2 x3 y3 x y : Int) :
    pointInTriangle x1 y1 x2 y2 x3 y3 x y = true ↔
      0 ≤ (x2 - x1) * (y - y1) - (y2 - y1) * (x - x1) ∧
      0 ≤ (x3 - x2) * (y - y2) - (y3 - y2) * (x - x2) ∧
      0 ≤ (x1 - x3) * (y - y3) - (y1 - y3) * (x - x3) := by
  simp [pointInTriangle, Int.sign_nonneg, and_assoc]

/-- C2: on a positive canvas, `triangle` sets a canvas pixel to the packed
color exactly when the pixel is in the clipped bounding box produced by
`normalize_triangle` and all three edge functions (directed edges in vertex
order 1→2, 2→3, 3→1) are nonnegative there; every other canvas pixel is
unchanged. -/
theorem C2_triangle_pixel_characterization (c : Canvas)
    (x1 y1 x2 y2 x3 y3 : Int) (color : Nat)
    (hw : 0 < c.width) (hh : 0 < c.height) (x y : Int)
    (hx0 : 0 ≤ x) (hxw : x < (c.width : Int))
    (hy0 : 0 ≤ y) (hyh : y < (c.height : Int)) :
    (triangleHit c.width c.height x1 y1 x2 y2 x3 y3 x y →
      (c.triangle x1 y1 x2 y2 x3 y3 color).pixels (c.get_index x y) = color) ∧
    (¬ triangleHit c.width c.height x1 y1 x2 y2 x3 y3 x y →
      (c.triangle x1 y1 x2 y2 x3 y3 color).pixels (c.get_index x y) =
        c.pixels (c.get_index x y)) := by
  constructor
  · rintro ⟨⟨nt, hnt, hbx1, hbx2, hby1, hby2⟩, hz1, hz2, hz3⟩
    simp only [Canvas.triangle, hnt]
    apply nestedWrite_written
    exact ⟨x, mem_intRange.mpr ⟨hbx1, hbx2⟩, y, mem_intRange.mpr ⟨hby1, hby2⟩,
      (pointInTriangle_iff x1 y1 x2 y2 x3 y3 x y).mpr ⟨hz1, hz2, hz3⟩, rfl⟩
  · intro hnot
    cases hnt : normalize_triangle c.width c.height x1 y1 x2 y2 x3 y3 with
    | none => simp [Canvas.triangle, hnt]
    | some nt =>
      simp only [Canvas.triangle, hnt]
      apply nestedWrite_not_written
      intro px hpx py hpy hpred hidx
      obtain ⟨hb1, hb2, hb3, hb4⟩ := normalize_triangle_bounds hnt
      have hpx' := mem_intRange.mp hpx
      have hpy' := mem_intRange.mp hpy
      have heq := get_index_inj c (by omega) (by omega) (by omega)
        hx0 hxw hy0 hidx
      obtain ⟨rfl, rfl⟩ := heq
      exact hnot ⟨⟨nt, hnt, hpx'.1, hpx'.2, hpy'.1, hpy'.2⟩,
        (pointInTriangle_iff x1 y1 x2 y2 x3 y3 px py).mp hpred⟩

/-- C2 witness: the characterization applied on a 4-by-4 canvas to the
triangle (0,0), (3,0), (0,3) at the interior pixel (1, 1). -/
theorem C2_triangle_pixel_characterization_witness :
    (0 < (Canvas.new 4 4).width ∧ 0 < (Canvas.new 4 4).height ∧
      (0 : Int) ≤ 1 ∧ (1 : Int) < ((Canvas.new 4 4).width : Int) ∧
      (0 : Int) ≤ 1 ∧ (1 : Int) < ((Canvas.new 4 4).height : Int)) ∧
    ((triangleHit (Canvas.new 4 4).width (Canvas.new 4 4).height
        0 0 3 0 0 3 1 1 →
      ((Canvas.new 4 4).triangle 0 0 3 0 0 3 9).pixels
        ((Canvas.new 4 4).get_index 1 1) = 9) ∧
    (¬ triangleHit (Canvas.new 4 4).width (Canvas.new 4 4).height
        0 0 3 0 0 3 1 1 →
      ((Canvas.new 4 4).triangle 0 0 3 0 0 3 9).pixels
        ((Canvas.new 4 4).get_index 1 1) =
        (Canvas.new 4 4).pixels ((Canvas.new 4 4).get_index 1 1))) :=
  ⟨⟨by decide, by decide, by decide, by decide, by decide, by decide⟩,
    C2_triangle_pixel_characterization (Canvas.new 4 4) 0 0 3 0 0 3 9
      (by decide) (by decide) 1 1 (by decide) (by decide) (by decide) (by decide)⟩

/-! ## C9: rectangle fully inside the canvas -/

theorem normalize_rect_inside (c : Canvas) (x y w h : Int)
    (hw : 0 < w) (hh : 0 < h) (hx : 0 ≤ x) (hy : 0 ≤ y)
    (hxw : x + w ≤ (c.width : Int)) (hyh : y + h ≤ (c.height : Int)) :
    normalize_rect x y w h (c.width : Int) (c.height : Int) =
      some ⟨x, y, x + w - 1, y + h - 1, x, y, x + w - 1, y + h - 1⟩ := by
  rw [normalize_rect_eq_some]
  rw [Int.sign_eq_one_of_pos hw, Int.sign_eq_one_of_pos hh,
    abs_of_pos hw, abs_of_pos hh]
  refine ⟨by omega, by omega, by omega, by omega, by omega, by omega, ?_⟩
  simp only [NormalizedRect.mk.injEq]
  refine ⟨by omega, by omega, by omega, by omega, by omega, by omega,
    by omega, by omega⟩

/-- C9: drawing a rectangle of positive extent lying fully inside the canvas
sets every pixel of the w-by-h box starting at (x, y) — exactly w*h pixels —
to the packed color, and leaves every canvas pixel outside the box exactly
as it was. -/
theorem C9_rect_fully_inside (c : Canvas) (x y w h : Int) (color : Nat)
    (hw : 0 < w) (hh : 0 < h) (hx : 0 ≤ x) (hy : 0 ≤ y)
    (hxw : x + w ≤ (c.width : Int)) (hyh : y + h ≤ (c.height : Int)) :
    (∀ px py : Int, x ≤ px → px < x + w → y ≤ py → py < y + h →
      (c.rect x y w h color).pixels (c.get_index px py) = color) ∧
    (∀ px py : Int, 0 ≤ px → px < (c.width : Int) →
      0 ≤ py → py < (c.height : Int) →
      ¬(x ≤ px ∧ px < x + w ∧ y ≤ py ∧ py < y + h) →
      (c.rect x y w h color).pixels (c.get_index px py) =
        c.pixels (c.get_index px py)) ∧
    (Finset.Icc x (x + w - 1) ×ˢ Finset.Icc y (y + h - 1)).card =
      (w * h).toNat := by
  have hnr := normalize_rect_inside c x y w h hw hh hx hy hxw hyh
  refine ⟨?_, ?_, ?_⟩
  · intro px py h1 h2 h3 h4
    simp only [Canvas.rect, hnr]
    apply nestedWrite_written
    exact ⟨px, mem_intRange.mpr ⟨by omega, by omega⟩,
      py, mem_intRange.mpr ⟨by omega, by omega⟩, rfl, rfl⟩
  · intro px py h1 h2 h3 h4 hout
    simp only [Canvas.rect, hnr]
    apply nestedWrite_not_written
    intro qx hqx qy hqy _ hidx
    have hqx' := mem_intRange.mp hqx
    have hqy' := mem_intRange.mp hqy
    have heq := get_index_inj c (by omega) (by omega) (by omega) h1 h2 h3 hidx
    exact hout ⟨by omega, by omega, by omega, by omega⟩
  · rw [Finset.card_product, Int.card_Icc, Int.card_Icc,
      show x + w - 1 + 1 - x = w by ring, show y + h - 1 + 1 - y = h by ring]
    calc w.toNat * h.toNat = ((w.toNat * h.toNat : Nat) : Int).toNat := by
          rw [Int.toNat_natCast]
    _ = (w * h).toNat := by
          rw [Nat.cast_mul, Int.toNat_of_nonneg hw.le, Int.toNat_of_nonneg hh.le]

/-- C9 witness: a 2-by-3 rectangle at (1, 1) on a 4-by-5 canvas, checked at
the inside pixel (2, 2) and the outside pixel (0, 0). -/
theorem C9_rect_fully_inside_witness :
    ((0 : Int) < 2 ∧ (0 : Int) < 3 ∧ (0 : Int) ≤ 1 ∧ (0 : Int) ≤ 1 ∧
      (1 + 2 : Int) ≤ ((Canvas.new 4 5).width : Int) ∧
      (1 + 3 : Int) ≤ ((Canvas.new 4 5).height : Int)) ∧
    ((Canvas.new 4 5).rect 1 1 2 3 9).pixels
      ((Canvas.new 4 5).get_index 2 2) = 9 ∧
    ((Canvas.new 4 5).rect 1 1 2 3 9).pixels
      ((Canvas.new 4 5).get_index 0 0) =
      (Canvas.new 4 5).pixels ((Canvas.new 4 5).get_index 0 0) := by
  have hmain := C9_rect_fully_inside (Canvas.new 4 5) 1 1 2 3 9
    (by decide) (by decide) (by decide) (by decide) (by decide) (by decide)
  exact ⟨⟨by decide, by decide, by decide, by decide, by decide, by decide⟩,
    hmain.1 2 2 (by decide) (by decide) (by decide) (by decide),
    hmain.2.1 0 0 (by decide) (by decide) (by decide) (by decide) (by decide)⟩

/-! ## C10: the circle's pixel set is invariant under negating the radius -/

theorem normalize_rect_eq_none {x y w h cw ch : Int} :
    normalize_rect x y w h cw ch = none ↔
      w = 0 ∨ h = 0 ∨ cw ≤ min x (x + w.sign * (|w| - 1)) ∨
      max x (x + w.sign * (|w| - 1)) < 0 ∨
      ch ≤ min y (y + h.sign * (|h| - 1)) ∨
      max y (y + h.sign * (|h| - 1)) < 0 := by
  simp only [normalize_rect, sortFst, sortSnd, clampLow, clampHigh]
  generalize x + w.sign * (|w| - 1) = dx
  generalize y + h.sign * (|h| - 1) = dy
  split_ifs with h0 hcull <;>
    simp only [reduceCtorEq, false_iff, iff_false, true_iff, iff_true,
      not_or, not_le, not_lt] <;>
    omega

theorem abs_le_abs_sub_one_of_sq_lt_sq {d r : Int} (h : d * d < r * r) :
    |d| ≤ |r| - 1 := by
  by_contra hc
  push_neg at hc
  have h1 : |r| * |r| ≤ |d| * |d| :=
    mul_le_mul (by omega) (by omega) (abs_nonneg r) (abs_nonneg d)
  rw [abs_mul_abs_self, abs_mul_abs_self] at h1
  omega

theorem circle_box_bounds (cx r : Int) (hr : r ≠ 0) :
    min (cx - r) ((cx - r) + (r * 2).sign * (|r * 2| - 1)) ≤ cx - |r| + 1 ∧
    cx + |r| - 1 ≤ max (cx - r) ((cx - r) + (r * 2).sign * (|r * 2| - 1)) := by
  rcases lt_or_gt_of_ne hr with hneg | hpos
  · rw [show (r * 2).sign = -1 from Int.sign_eq_neg_one_of_neg (by omega),
      abs_of_neg (show r * 2 < 0 by omega), abs_of_neg hneg]
    constructor <;> omega
  · rw [show (r * 2).sign = 1 from Int.sign_eq_one_of_pos (by omega),
      abs_of_pos (show (0 : Int) < r * 2 by omega), abs_of_pos hpos]
    constructor <;> omega

/-- The set of flat indices `Canvas::circle` colors: indices of canvas
pixels strictly inside the requested disc. -/
def discHit (c : Canvas) (cx cy r : Int) (i : Nat) : Prop :=
  ∃ px py : Int, 0 ≤ px ∧ px < (c.width : Int) ∧
    0 ≤ py ∧ py < (c.height : Int) ∧
    (cx - px) * (cx - px) + (cy - py) * (cy - py) < r * r ∧
    i = c.get_index px py

theorem circle_pixel_hit (c : Canvas) (cx cy r : Int) (color : Nat) (i : Nat)
    (h : discHit c cx cy r i) :
    (c.circle cx cy r color).pixels i = color := by
  obtain ⟨px, py, hpx0, hpxw, hpy0, hpyh, hdisc, hi⟩ := h
  have hx2 := mul_self_nonneg (cx - px)
  have hy2 := mul_self_nonneg (cy - py)
  have hr : r ≠ 0 := by
    intro h0
    subst h0
    omega
  have hdx := abs_le_abs_sub_one_of_sq_lt_sq
    (show (cx - px) * (cx - px) < r * r by omega)
  have hdy := abs_le_abs_sub_one_of_sq_lt_sq
    (show (cy - py) * (cy - py) < r * r by omega)
  rw [abs_le] at hdx hdy
  obtain ⟨hm1, hM1⟩ := circle_box_bounds cx r hr
  obtain ⟨hm2, hM2⟩ := circle_box_bounds cy r hr
  cases hn : normalize_rect (cx - r) (cy - r) (r * 2) (r * 2)
      (c.width : Int) (c.height : Int) with
  | none =>
    exfalso
    rw [normalize_rect_eq_none] at hn
    generalize (cx - r) + (r * 2).sign * (|r * 2| - 1) = ex at hn hm1 hM1
    generalize (cy - r) + (r * 2).sign * (|r * 2| - 1) = ey at hn hm2 hM2
    generalize |r| = ar at *
    omega
  | some nr =>
    simp only [Canvas.circle, hn]
    apply nestedWrite_written
    rw [normalize_rect_eq_some] at hn
    obtain ⟨hw0, hh0, hc1, hc2, hc3, hc4, rfl⟩ := hn
    refine ⟨px, mem_intRange.mpr ⟨?_, ?_⟩, py, mem_intRange.mpr ⟨?_, ?_⟩,
      by rw [decide_eq_true_eq]; omega, hi.symm⟩ <;>
      · simp only
        generalize (cx - r) + (r * 2).sign * (|r * 2| - 1) = ex at *
        generalize (cy - r) + (r * 2).sign * (|r * 2| - 1) = ey at *
        generalize |r| = ar at *
        omega

theorem circle_pixel_miss (c : Canvas) (cx cy r : Int) (color : Nat) (i : Nat)
    (h : ¬ discHit c cx cy r i) :
    (c.circle cx cy r color).pixels i = c.pixels i := by
  cases hn : normalize_rect (cx - r) (cy - r) (r * 2) (r * 2)
      (c.width : Int) (c.height : Int) with
  | none => simp [Canvas.circle, hn]
  | some nr =>
    simp only [Canvas.circle, hn]
    apply nestedWrite_not_written
    intro qx hqx qy hqy hpred hidx
    obtain ⟨hb1, hb2, hb3, hb4⟩ := normalize_rect_bounds hn
    have hqx' := mem_intRange.mp hqx
    have hqy' := mem_intRange.mp hqy
    rw [decide_eq_true_eq] at hpred
    exact h ⟨qx, qy, by omega, by omega, by omega, by omega, hpred, hidx.symm⟩

theorem circle_width (c : Canvas) (cx cy r : Int) (color : Nat) :
    (c.circle cx cy r color).width = c.width := by
  unfold Canvas.circle
  cases normalize_rect (cx - r) (cy - r) (r * 2) (r * 2)
      (c.width : Int) (c.height : Int) <;> rfl

theorem circle_height (c : Canvas) (cx cy r : Int) (color : Nat) :
    (c.circle cx cy r color).height = c.height := by
  unfold Canvas.circle
  cases normalize_rect (cx - r) (cy - r) (r * 2) (r * 2)
      (c.width : Int) (c.height : Int) <;> rfl

theorem Canvas.eq_of {a b : Canvas} (hp : a.pixels = b.pixels)
    (hw : a.width = b.width) (hh : a.height = b.height) : a = b := by
  cases a
  cases b
  simp_all

/-- C10: `circle` with the radius negated draws exactly the same canvas as
with the positive radius — a negative radius is not rejected, the mirrored
bounding box still covers the whole strict disc, and the disc test uses
radius², which is invariant under negation. -/
theorem C10_circle_radius_negation (c : Canvas) (cx cy r : Int) (color : Nat) :
    c.circle cx cy (-r) color = c.circle cx cy r color := by
  have hiff : ∀ i, discHit c cx cy (-r) i ↔ discHit c cx cy r i := by
    intro i
    unfold discHit
    simp only [neg_mul_neg]
  apply Canvas.eq_of
  · funext i
    by_cases hd : discHit c cx cy r i
    · rw [circle_pixel_hit c cx cy (-r) color i ((hiff i).mpr hd),
        circle_pixel_hit c cx cy r color i hd]
    · rw [circle_pixel_miss c cx cy (-r) color i (fun hcontra =>
        hd ((hiff i).mp hcontra)),
        circle_pixel_miss c cx cy r color i hd]
  · rw [circle_width, circle_width]
  · rw [circle_height, circle_height]

/-! ## C6: degenerate / fully-off-canvas geometry -/

/-- C6 counterexample: the claim says every zero-size primitive draws
nothing, including "a triangle of zero size".  A zero-size triangle with all
three vertices at the on-canvas point (0, 0) makes all three edge values 0,
`signum() >= 0` accepts them, and pixel (0, 0) IS colored (7 over the fresh
canvas's 0). -/
theorem C6_zero_size_triangle_draws :
    ((Canvas.new 2 2).triangle 0 0 0 0 0 0 7).pixels 0 = 7 ∧
    (Canvas.new 2 2).pixels 0 = 0 ∧
    ¬ ((Canvas.new 2 2).triangle 0 0 0 0 0 0 7 = Canvas.new 2 2) := by
  refine ⟨?_, rfl, ?_⟩
  · rfl
  · intro h
    have h0 := congrArg (fun cv => cv.pixels 0) h
    simp only at h0
    rw [show ((Canvas.new 2 2).triangle 0 0 0 0 0 0 7).pixels 0 = 7 from rfl]
      at h0
    exact absurd h0 (by decide)

theorem triangle_width (c : Canvas) (x1 y1 x2 y2 x3 y3 : Int) (color : Nat) :
    (c.triangle x1 y1 x2 y2 x3 y3 color).width = c.width := by
  unfold Canvas.triangle
  cases normalize_triangle c.width c.height x1 y1 x2 y2 x3 y3 <;> rfl

theorem triangle_height (c : Canvas) (x1 y1 x2 y2 x3 y3 : Int) (color : Nat) :
    (c.triangle x1 y1 x2 y2 x3 y3 color).height = c.height := by
  unfold Canvas.triangle
  cases normalize_triangle c.width c.height x1 y1 x2 y2 x3 y3 <;> rfl

/-- C6 amended: on a positive canvas, a rect of zero width or height, a rect
whose requested (ordered, unclamped) box misses every canvas pixel, a circle
whose strict disc contains no canvas pixel, a triangle culled by
`normalize_triangle`, and a triangle whose edge test accepts no canvas pixel
all return normally and change nothing; zero-size triangles are excluded
(they do draw, see the counterexample). -/
theorem C6_amended_no_op_geometry (c : Canvas) (hw : 0 < c.width)
    (hh : 0 < c.height) (color : Nat) :
    (∀ x y w h : Int, w = 0 ∨ h = 0 → c.rect x y w h color = c) ∧
    (∀ x y w h : Int,
      (∀ px py : Int, min x (x + w.sign * (|w| - 1)) ≤ px →
        px ≤ max x (x + w.sign * (|w| - 1)) →
        min y (y + h.sign * (|h| - 1)) ≤ py →
        py ≤ max y (y + h.sign * (|h| - 1)) →
        ¬(0 ≤ px ∧ px < (c.width : Int) ∧ 0 ≤ py ∧ py < (c.height : Int))) →
      c.rect x y w h color = c) ∧
    (∀ cx cy r : Int,
      (∀ px py : Int, 0 ≤ px → px < (c.width : Int) → 0 ≤ py →
        py < (c.height : Int) →
        ¬((cx - px) * (cx - px) + (cy - py) * (cy - py) < r * r)) →
      c.circle cx cy r color = c) ∧
    (∀ x1 y1 x2 y2 x3 y3 : Int,
      normalize_triangle c.width c.height x1 y1 x2 y2 x3 y3 = none →
      c.triangle x1 y1 x2 y2 x3 y3 color = c) ∧
    (∀ x1 y1 x2 y2 x3 y3 : Int,
      (∀ px py : Int, 0 ≤ px → px < (c.width : Int) → 0 ≤ py →
        py < (c.height : Int) →
        ¬(0 ≤ (x2 - x1) * (py - y1) - (y2 - y1) * (px - x1) ∧
          0 ≤ (x3 - x2) * (py - y2) - (y3 - y2) * (px - x2) ∧
          0 ≤ (x1 - x3) * (py - y3) - (y1 - y3) * (px - x3))) →
      c.triangle x1 y1 x2 y2 x3 y3 color = c) := by
  refine ⟨?_, ?_, ?_, ?_, ?_⟩
  · intro x y w h h0
    have hn : normalize_rect x y w h (c.width : Int) (c.height : Int) = none := by
      rw [normalize_rect_eq_none]
      tauto
    simp [Canvas.rect, hn]
  · intro x y w h hout
    cases hn : normalize_rect x y w h (c.width : Int) (c.height : Int) with
    | none => simp [Canvas.rect, hn]
    | some nr =>
      exfalso
      rw [normalize_rect_eq_some] at hn
      obtain ⟨hw0, hh0, h1, h2, h3, h4, _⟩ := hn
      generalize x + w.sign * (|w| - 1) = dx at *
      generalize y + h.sign * (|h| - 1) = dy at *
      exact hout (max (min x dx) 0) (max (min y dy) 0) (by omega) (by omega)
        (by omega) (by omega) ⟨by omega, by omega, by omega, by omega⟩
  · intro cx cy r hout
    apply Canvas.eq_of
    · funext i
      apply circle_pixel_miss
      rintro ⟨px, py, h1, h2, h3, h4, hdisc, _⟩
      exact hout px py h1 h2 h3 h4 hdisc
    · exact circle_width c cx cy r color
    · exact circle_height c cx cy r color
  · intro x1 y1 x2 y2 x3 y3 hn
    simp [Canvas.triangle, hn]
  · intro x1 y1 x2 y2 x3 y3 hout
    cases hn : normalize_triangle c.width c.height x1 y1 x2 y2 x3 y3 with
    | none => simp [Canvas.triangle, hn]
    | some nt =>
      apply Canvas.eq_of
      · funext i
        simp only [Canvas.triangle, hn]
        apply nestedWrite_not_written
        intro px hpx py hpy hpred _
        obtain ⟨hb1, hb2, hb3, hb4⟩ := normalize_triangle_bounds hn
        have hpx' := mem_intRange.mp hpx
        have hpy' := mem_intRange.mp hpy
        exact hout px py (by omega) (by omega) (by omega) (by omega)
          ((pointInTriangle_iff x1 y1 x2 y2 x3 y3 px py).mp hpred)
      · exact triangle_width c x1 y1 x2 y2 x3 y3 color
      · exact triangle_height c x1 y1 x2 y2 x3 y3 color

/-- C6 amended witness: the no-op conjunction applied to a concrete 3-by-3
canvas, evaluated on a zero-width rect, a fully-left rect, a far-away
circle, a culled triangle, and a clockwise (never-drawn) triangle. -/
theorem C6_amended_no_op_geometry_witness :
    (0 < (Canvas.new 3 3).width ∧ 0 < (Canvas.new 3 3).height) ∧
    ((Canvas.new 3 3).rect 1 1 0 5 7 = Canvas.new 3 3 ∧
      (Canvas.new 3 3).rect (-9) (-9) 2 2 7 = Canvas.new 3 3 ∧
      (Canvas.new 3 3).circle (-100) (-100) 3 7 = Canvas.new 3 3 ∧
      (Canvas.new 3 3).triangle (-5) (-5) (-6) (-5) (-5) (-6) 7 =
        Canvas.new 3 3) := by
  have hmain := C6_amended_no_op_geometry (Canvas.new 3 3) (by decide)
    (by decide) 7
  refine ⟨⟨by decide, by decide⟩, ?_, ?_, ?_, ?_⟩
  · exact hmain.1 1 1 0 5 (Or.inl rfl)
  · refine hmain.2.1 (-9) (-9) 2 2 ?_
    intro px py hp1 hp2 hp3 hp4
    simp only [show ((2 : Int)).sign = 1 from rfl,
      show |(2 : Int)| = 2 from rfl] at hp1 hp2 hp3 hp4
    omega
  · refine hmain.2.2.1 (-100) (-100) 3 ?_
    intro px py hp1 hp2 hp3 hp4 hdisc
    have heq : (-100 - px) * (-100 - px) = (100 + px) * (100 + px) := by ring
    have h100 : 100 * 100 ≤ (100 + px) * (100 + px) := by nlinarith
    have hnn : 0 ≤ (-100 - py) * (-100 - py) := mul_self_nonneg _
    omega
  · exact hmain.2.2.2.1 (-5) (-5) (-6) (-5) (-5) (-6) rfl

/-! ## C3: depth-buffer length precondition -/

/-- C3 counterexample: the claim says EVERY call with a wrong-sized depth
buffer panics without drawing, for every choice of vertices.  The source
culls the triangle via `normalize_triangle` BEFORE the length check
(canvas.rs:255 vs 270), so three fully-off-canvas vertices return normally
(some, unchanged) even though the buffer length 0 differs from 2*2 = 4. -/
theorem C3_counterexample_culled_before_length_check :
    (Canvas.new 2 2).triangle_with_depth_buffer
        ⟨-5, -5, 0⟩ ⟨-6, -5, 0⟩ ⟨-5, -6, 0⟩ 7 ⟨0, fun _ => 0⟩ =
      some (Canvas.new 2 2, ⟨0, fun _ => 0⟩) ∧
    (0 : Nat) ≠ (Canvas.new 2 2).width * (Canvas.new 2 2).height := by
  constructor
  · rfl
  · decide

/-- C3 amended: a call with a mismatched depth-buffer length panics without
drawing whenever the triangle survives the `normalize_triangle` cull; when
the cull fires first, the call returns normally with canvas and buffer
unchanged. -/
theorem C3_amended_length_mismatch (c : Canvas) (v1 v2 v3 : Vec3)
    (color : Nat) (db : DepthBuffer)
    (hlen : db.len ≠ c.width * c.height) :
    ((∃ nt, normalize_triangle c.width c.height
        (ratToI32 v1.x) (ratToI32 v1.y) (ratToI32 v2.x) (ratToI32 v2.y)
        (ratToI32 v3.x) (ratToI32 v3.y) = some nt) →
      c.triangle_with_depth_buffer v1 v2 v3 color db = none) ∧
    (normalize_triangle c.width c.height
        (ratToI32 v1.x) (ratToI32 v1.y) (ratToI32 v2.x) (ratToI32 v2.y)
        (ratToI32 v3.x) (ratToI32 v3.y) = none →
      c.triangle_with_depth_buffer v1 v2 v3 color db = some (c, db)) := by
  constructor
  · rintro ⟨nt, hnt⟩
    unfold Canvas.triangle_with_depth_buffer
    simp only [hnt]
    rw [if_pos hlen]
  · intro hnone
    unfold Canvas.triangle_with_depth_buffer
    simp only [hnone]

/-- C3 amended witness: on a 2-by-2 canvas with an empty depth buffer, the
visible triangle (0,0),(1,0),(0,1) panics, while the fully-off-canvas
triangle of the counterexample returns normally. -/
theorem C3_amended_length_mismatch_witness :
    ((0 : Nat) ≠ (Canvas.new 2 2).width * (Canvas.new 2 2).height) ∧
    (Canvas.new 2 2).triangle_with_depth_buffer
        ⟨0, 0, 1⟩ ⟨1, 0, 1⟩ ⟨0, 1, 1⟩ 7 ⟨0, fun _ => 0⟩ = none ∧
    (Canvas.new 2 2).triangle_with_depth_buffer
        ⟨-5, -5, 0⟩ ⟨-6, -5, 0⟩ ⟨-5, -6, 0⟩ 7 ⟨0, fun _ => 0⟩ =
      some (Canvas.new 2 2, ⟨0, fun _ => 0⟩) := by
  have h1 := C3_amended_length_mismatch (Canvas.new 2 2)
    ⟨0, 0, 1⟩ ⟨1, 0, 1⟩ ⟨0, 1, 1⟩ 7 ⟨0, fun _ => 0⟩ (by decide)
  have h2 := C3_amended_length_mismatch (Canvas.new 2 2)
    ⟨-5, -5, 0⟩ ⟨-6, -5, 0⟩ ⟨-5, -6, 0⟩ 7 ⟨0, fun _ => 0⟩ (by decide)
  exact ⟨by decide, h1.1 ⟨⟨0, 1, 0, 1⟩, rfl⟩, h2.2 rfl⟩

/-! ## C5: depth-buffered drawing is idempotent without a buffer reset -/

theorem foldl_depthStep_untouched (idx : Int → Int → Nat)
    (pib : Int → Int → Bool) (z : Int → Int → ℚ) (color : Nat)
    (cells : List (Int × Int)) (st : (Nat → Nat) × (Nat → ℚ)) (i : Nat)
    (h : ∀ p ∈ cells, idx p.1 p.2 ≠ i) :
    (cells.foldl (depthStep idx pib z color) st).1 i = st.1 i ∧
    (cells.foldl (depthStep idx pib z color) st).2 i = st.2 i := by
  induction cells generalizing st with
  | nil => exact ⟨rfl, rfl⟩
  | cons p rest ih =>
    rw [List.foldl_cons]
    have hp := h p (List.mem_cons_self p rest)
    have hrest := ih (depthStep idx pib z color st p)
      (fun q hq => h q (List.mem_cons_of_mem p hq))
    have hstep1 : (depthStep idx pib z color st p).1 i = st.1 i := by
      unfold depthStep
      split
      · exact Function.update_noteq (Ne.symm hp) _ _
      · rfl
    have hstep2 : (depthStep idx pib z color st p).2 i = st.2 i := by
      unfold depthStep
      split
      · exact Function.update_noteq (Ne.symm hp) _ _
      · rfl
    exact ⟨hrest.1.trans hstep1, hrest.2.trans hstep2⟩

theorem foldl_depthStep_post (idx : Int → Int → Nat)
    (pib : Int → Int → Bool) (z : Int → Int → ℚ) (color : Nat)
    (cells : List (Int × Int)) (st : (Nat → Nat) × (Nat → ℚ))
    (hnodup : cells.Nodup)
    (hinj : ∀ p ∈ cells, ∀ q ∈ cells, idx p.1 p.2 = idx q.1 q.2 → p = q) :
    ∀ p ∈ cells, pib p.1 p.2 = true →
      (cells.foldl (depthStep idx pib z color) st).2 (idx p.1 p.2) ≤
        z p.1 p.2 := by
  induction cells generalizing st with
  | nil =>
    intro p hp
    exact absurd hp (List.not_mem_nil p)
  | cons q rest ih =>
    intro p hp hpib
    rw [List.foldl_cons]
    rw [List.nodup_cons] at hnodup
    rcases List.mem_cons.mp hp with rfl | hpr
    · have hnotouch : ∀ q' ∈ rest, idx q'.1 q'.2 ≠ idx p.1 p.2 := by
        intro q' hq' hcontra
        have heq := hinj q' (List.mem_cons_of_mem p hq') p
          (List.mem_cons_self p rest) hcontra
        exact hnodup.1 (heq ▸ hq')
      rw [(foldl_depthStep_untouched idx pib z color rest
        (depthStep idx pib z color st p) (idx p.1 p.2) hnotouch).2]
      unfold depthStep
      split
      · rename_i hcond
        simp only [Function.update_same]
        exact le_rfl
      · rename_i hcond
        exact le_of_not_lt (fun hz => hcond ⟨hpib, hz⟩)
    · exact ih (depthStep idx pib z color st q) hnodup.2
        (fun a ha b hb => hinj a (List.mem_cons_of_mem q ha) b
          (List.mem_cons_of_mem q hb)) p hpr hpib

theorem foldl_depthStep_noop (idx : Int → Int → Nat)
    (pib : Int → Int → Bool) (z : Int → Int → ℚ) (color : Nat)
    (cells : List (Int × Int)) (st : (Nat → Nat) × (Nat → ℚ))
    (h : ∀ p ∈ cells, pib p.1 p.2 = true →
      ¬ z p.1 p.2 < st.2 (idx p.1 p.2)) :
    cells.foldl (depthStep idx pib z color) st = st := by
  induction cells with
  | nil => rfl
  | cons p rest ih =>
    rw [List.foldl_cons]
    have hstep : depthStep idx pib z color st p = st := by
      unfold depthStep
      rw [if_neg]
      rintro ⟨hpib, hz⟩
      exact h p (List.mem_cons_self p rest) hpib hz
    rw [hstep]
    exact ih (fun q hq => h q (List.mem_cons_of_mem p hq))

theorem intRange_nodup (a b : Int) : (intRange a b).Nodup := by
  unfold intRange
  apply List.Nodup.map
  · intro i j hij
    have h2 : a + (i : Int) = a + (j : Int) := hij
    omega
  · exact List.nodup_range _

theorem cellProd_nodup {xs ys : List Int} (hxs : xs.Nodup) (hys : ys.Nodup) :
    (cellProd xs ys).Nodup := by
  induction xs with
  | nil => exact List.nodup_nil
  | cons x xs ih =>
    rw [List.nodup_cons] at hxs
    rw [cellProd, List.flatMap_cons]
    apply List.Nodup.append
    · apply List.Nodup.map
      · intro a b hab
        simpa using hab
      · exact hys
    · exact ih hxs.2
    · intro p hp1 hp2
      rw [List.mem_map] at hp1
      obtain ⟨py, hpy, rfl⟩ := hp1
      exact hxs.1 (mem_cellProd.mp hp2).1

theorem get_index_set_pixels (c : Canvas) (p : Nat → Nat) :
    Canvas.get_index { c with pixels := p } = c.get_index := rfl

/-- C5: drawing the same depth-buffered triangle twice in a row, with a
correctly sized depth buffer and no reset in between, leaves both the pixel
buffer and the depth buffer unchanged by the second call: every candidate
pixel's recorded depth is already less than or equal to its interpolated
depth after the first call. -/
theorem C5_depth_triangle_second_draw_no_change (c : Canvas)
    (v1 v2 v3 : Vec3) (color : Nat) (db : DepthBuffer)
    (hlen : db.len = c.width * c.height) (c2 : Canvas) (db2 : DepthBuffer)
    (hfirst : c.triangle_with_depth_buffer v1 v2 v3 color db =
      some (c2, db2)) :
    c2.triangle_with_depth_buffer v1 v2 v3 color db2 = some (c2, db2) := by
  unfold Canvas.triangle_with_depth_buffer at hfirst
  cases hnt : normalize_triangle c.width c.height
      (ratToI32 v1.x) (ratToI32 v1.y) (ratToI32 v2.x) (ratToI32 v2.y)
      (ratToI32 v3.x) (ratToI32 v3.y) with
  | none =>
    simp only [hnt, Option.some.injEq, Prod.mk.injEq] at hfirst
    obtain ⟨rfl, rfl⟩ := hfirst
    unfold Canvas.triangle_with_depth_buffer
    simp only [hnt]
  | some nt =>
    simp only [hnt] at hfirst
    rw [if_neg (by omega)] at hfirst
    rw [Option.some.injEq, Prod.mk.injEq] at hfirst
    obtain ⟨hc2, hdb2⟩ := hfirst
    subst hc2
    subst hdb2
    unfold Canvas.triangle_with_depth_buffer
    simp only [get_index_set_pixels, hnt]
    rw [if_neg (show ¬ db.len ≠ c.width * c.height by omega)]
    rw [nestedFold_eq_foldl, Prod.mk.eta, nestedFold_eq_foldl]
    have hb := normalize_triangle_bounds hnt
    have hnoop : (cellProd (intRange nt.left_x nt.right_x)
        (intRange nt.top_y nt.bottom_y)).foldl
        (depthStep c.get_index
          (pointInTriangle (ratToI32 v1.x) (ratToI32 v1.y) (ratToI32 v2.x)
            (ratToI32 v2.y) (ratToI32 v3.x) (ratToI32 v3.y))
          (planeDepth v1 v2 v3) color)
        ((cellProd (intRange nt.left_x nt.right_x)
          (intRange nt.top_y nt.bottom_y)).foldl
          (depthStep c.get_index
            (pointInTriangle (ratToI32 v1.x) (ratToI32 v1.y) (ratToI32 v2.x)
              (ratToI32 v2.y) (ratToI32 v3.x) (ratToI32 v3.y))
            (planeDepth v1 v2 v3) color) (c.pixels, db.vals)) =
        (cellProd (intRange nt.left_x nt.right_x)
          (intRange nt.top_y nt.bottom_y)).foldl
          (depthStep c.get_index
            (pointInTriangle (ratToI32 v1.x) (ratToI32 v1.y) (ratToI32 v2.x)
              (ratToI32 v2.y) (ratToI32 v3.x) (ratToI32 v3.y))
            (planeDepth v1 v2 v3) color) (c.pixels, db.vals) := by
      have hinj : ∀ p ∈ cellProd (intRange nt.left_x nt.right_x)
          (intRange nt.top_y nt.bottom_y),
          ∀ q ∈ cellProd (intRange nt.left_x nt.right_x)
            (intRange nt.top_y nt.bottom_y),
          c.get_index p.1 p.2 = c.get_index q.1 q.2 → p = q := by
        intro p hp q hq hidx
        rw [mem_cellProd] at hp hq
        have hp1 := mem_intRange.mp hp.1
        have hp2 := mem_intRange.mp hp.2
        have hq1 := mem_intRange.mp hq.1
        have hq2 := mem_intRange.mp hq.2
        have hpq := get_index_inj c (by omega) (by omega) (by omega)
          (by omega) (by omega) (by omega) hidx
        exact Prod.ext hpq.1 hpq.2
      have hnodup := cellProd_nodup (intRange_nodup nt.left_x nt.right_x)
        (intRange_nodup nt.top_y nt.bottom_y)
      have hpost := foldl_depthStep_post c.get_index
        (pointInTriangle (ratToI32 v1.x) (ratToI32 v1.y) (ratToI32 v2.x)
          (ratToI32 v2.y) (ratToI32 v3.x) (ratToI32 v3.y))
        (planeDepth v1 v2 v3) color
        (cellProd (intRange nt.left_x nt.right_x)
          (intRange nt.top_y nt.bottom_y))
        (c.pixels, db.vals) hnodup hinj
      exact foldl_depthStep_noop _ _ _ _ _ _
        (fun p hp hpib => not_lt.mpr (hpost p hp hpib))
    rw [hnoop]

/-- C5 witness: the idempotence theorem applied on a 2-by-2 canvas with a
correctly sized (length 4) depth buffer; the first call's result is
discharged by evaluation. -/
theorem C5_depth_triangle_second_draw_no_change_witness :
    ((⟨4, fun _ => 0⟩ : DepthBuffer).len =
      (Canvas.new 2 2).width * (Canvas.new 2 2).height) ∧
    (Canvas.new 2 2).triangle_with_depth_buffer
        ⟨-5, -5, 0⟩ ⟨-6, -5, 0⟩ ⟨-5, -6, 0⟩ 7 ⟨4, fun _ => 0⟩ =
      some (Canvas.new 2 2, ⟨4, fun _ => 0⟩) ∧
    (Canvas.new 2 2).triangle_with_depth_buffer
        ⟨-5, -5, 0⟩ ⟨-6, -5, 0⟩ ⟨-5, -6, 0⟩ 7 ⟨4, fun _ => 0⟩ =
      some (Canvas.new 2 2, ⟨4, fun _ => 0⟩) :=
  ⟨by decide, rfl,
    C5_depth_triangle_second_draw_no_change (Canvas.new 2 2)
      ⟨-5, -5, 0⟩ ⟨-6, -5, 0⟩ ⟨-5, -6, 0⟩ 7 ⟨4, fun _ => 0⟩ (by decide)
      (Canvas.new 2 2) ⟨4, fun _ => 0⟩ rfl⟩

end Farba
